import Mathlib

/-!
Verification of `Dynamic Programming/Knapsack/knapsack.py`.

The file embeds the `KnapsackSolver` class and its four solving methods as
Lean functions over mathematical integers:

* `dfs_a` / `dfs_b` — the memoized top-down solvers, with the memo dictionary
  threaded explicitly as state (`Memo`);
* `dp_a` / `dp_b` — the bottom-up numpy-grid solvers; each grid cell is a
  function of its row and column, grid reads go through `npReadE`, which
  reproduces numpy's negative-index wrap-around and out-of-bounds
  `IndexError`, and grid construction with a negative number of columns
  fails like `np.full` / `np.zeros` do;
* `solve_all` — running all four methods and checking consistency via the
  number of distinct results.

Python list indexing `xs[i]` is rendered as `List.getD xs i 0`; every theorem
about a solver either constrains the instance so that all accessed indices
are in bounds (where `getD` agrees with Python indexing) or concerns only
code paths that perform no indexing.

The machine arithmetic of the two grids is modelled faithfully:
`dp_a`'s grid is an int64 array (`np.full`), so the grid addition wraps
modulo 2^64 (`wrap64`) and a Python int outside the int64 range raises
OverflowError when numpy converts it for the addition; `dp_b`'s grid is a
float64 array (`np.zeros`), and since every value arising in it from
integer inputs is an integer-valued double, cells are modelled by `F64`
(an exact integer, an infinity, or nan), with each conversion and
addition rounded to 53-bit precision — round to nearest, ties to even —
and overflow to infinity (`roundF64`); the final `int(...)` is exact on
the integer-valued finite cells and raises on non-finite ones.
-/

/-- Embeds the `KnapsackSolver` instance: the four attributes set by
`__init__`. -/
structure KnapsackSolver where
  weights : List Int
  values : List Int
  capacity : Int
  n : Nat
deriving DecidableEq

/-- Embeds `KnapsackSolver.__init__`: stores the three arguments unchanged
and sets `n = len(weights)`.  The constructor performs no validation and
cannot fail. -/
def mkSolver (weights values : List Int) (capacity : Int) : KnapsackSolver :=
  ⟨weights, values, capacity, weights.length⟩

/-- The error conditions the Python code can raise while solving:
`IndexError` from indexing a numpy row out of bounds, `ValueError` from
`np.full` / `np.zeros` on a negative dimension, and the
`ValueError(f"Inconsistent results: {results}")` raised by `solve_all`
(carrying the four method results). -/
inductive PyError where
  | indexError : PyError
  | negativeDimensions : PyError
  | overflowError : PyError
  | nanError : PyError
  | inconsistentResults : List (String × Int) → PyError
deriving DecidableEq

instance exceptDecEq {ε α : Type} [DecidableEq ε] [DecidableEq α] :
    DecidableEq (Except ε α) := fun x y =>
  match x, y with
  | .ok a, .ok b =>
    if h : a = b then .isTrue (congrArg Except.ok h)
    else .isFalse fun he => h (Except.ok.inj he)
  | .error a, .error b =>
    if h : a = b then .isTrue (congrArg Except.error h)
    else .isFalse fun he => h (Except.error.inj he)
  | .ok _, .error _ => .isFalse fun he => Except.noConfusion he
  | .error _, .ok _ => .isFalse fun he => Except.noConfusion he

/-- The memo dictionary of the recursive solvers: association list from a
2-integer state key to a cached value. -/
abbrev Memo := List ((Nat × Int) × Int)

/-- `memo.get((i, c))`: first entry with the given key. -/
def lookupMemo : Memo → Nat × Int → Option Int
  | [], _ => none
  | e :: rest, q => if e.1 = q then some e.2 else lookupMemo rest q

/-- The pure value of the recursion inside `dfs_a`, written with explicit
fuel (the recursion always steps `i ↦ i + 1`, so `n - i` fuel is exact):
`f(i, c) = 0` when `i >= n` or `c <= 0`, otherwise
`max(f(i+1, c), take)` with `take = values[i] + f(i+1, c - weights[i])`
when `c >= weights[i]` and the sentinel `-10^9` otherwise. -/
def fAAux (wts vals : List Int) (n : Nat) : Nat → Nat → Int → Int
  | 0, _, _ => 0
  | fuel + 1, i, c =>
    if n ≤ i ∨ c ≤ 0 then 0
    else
      max (fAAux wts vals n fuel (i + 1) c)
        (if wts.getD i 0 ≤ c then vals.getD i 0 + fAAux wts vals n fuel (i + 1) (c - wts.getD i 0)
         else -(10 ^ 9))

/-- The pure value of `dfs_a`'s inner recursion at state `(i, c)`. -/
def fA (wts vals : List Int) (n : Nat) (i : Nat) (c : Int) : Int :=
  fAAux wts vals n (n - i) i c

/-- Embeds the inner `dfs` of `KnapsackSolver.dfs_a` with the memo
dictionary threaded as state: base case first, then memo lookup, then the
skip branch, the (feasibility-gated) take branch with sentinel `-10^9`,
and finally the store `memo[(i, c)] = max(skip, take)`. -/
def dfsAuxA (wts vals : List Int) (n : Nat) : Nat → Nat → Int → Memo → Int × Memo
  | 0, _, _, memo => (0, memo)
  | fuel + 1, i, c, memo =>
    if n ≤ i ∨ c ≤ 0 then (0, memo)
    else
      match lookupMemo memo (i, c) with
      | some x => (x, memo)
      | none =>
        let p1 := dfsAuxA wts vals n fuel (i + 1) c memo
        let p2 :=
          if wts.getD i 0 ≤ c then
            let q := dfsAuxA wts vals n fuel (i + 1) (c - wts.getD i 0) p1.2
            (vals.getD i 0 + q.1, q.2)
          else (-(10 ^ 9), p1.2)
        let best := max p1.1 p2.1
        (best, ((i, c), best) :: p2.2)

/-- Embeds `KnapsackSolver.dfs_a`: allocates a fresh empty memo and runs
the recursion from `(0, capacity)`. -/
def dfs_a (s : KnapsackSolver) : Int :=
  (dfsAuxA s.weights s.values s.n s.n 0 s.capacity []).1

/-- Embeds reading `row[idx]` on a numpy row of `cols` elements: an index
in `[0, cols)` reads directly, an index in `[-cols, 0)` wraps around, and
anything else raises `IndexError`. -/
def npReadE {α : Type} (f : Nat → Except PyError α) (cols : Nat) (idx : Int) :
    Except PyError α :=
  if 0 ≤ idx ∧ idx < (cols : Int) then f idx.toNat
  else if -(cols : Int) ≤ idx ∧ idx < 0 then f ((cols : Int) + idx).toNat
  else .error .indexError

/-- Wraps an integer into the int64 range `[-2^63, 2^63)`, the effect of
int64 addition overflow in the numpy grid. -/
def wrap64 (x : Int) : Int := (x + 2 ^ 63) % 2 ^ 64 - 2 ^ 63

/-- The cell `dp[i][j]` of `dp_a`'s grid, as a function of its position
(fuel is the number of rows below, `n - i`): row `n` is 0, and row `i`
is computed from row `i + 1` by the recurrence of the source loop, with
the read `dp[i+1][c - weights[i]]` going through `npReadE`.  The grid is
an int64 array (`np.full((n+1, capacity+1), -10**9)` with a Python-int
fill value), so the take addition `values[i] + dp[i+1][...]` first
converts the Python int `values[i]` to int64 — raising OverflowError when
it does not fit — and then wraps modulo 2^64; `max` and the capacity
comparisons are exact. -/
def dpACellAux (wts vals : List Int) (n cols : Nat) : Nat → Nat → Nat → Except PyError Int
  | 0, _, _ => .ok 0
  | fuel + 1, i, j =>
    if n ≤ i then .ok 0
    else
      match dpACellAux wts vals n cols fuel (i + 1) j with
      | .error e => .error e
      | .ok skip =>
        if wts.getD i 0 ≤ (j : Int) then
          match npReadE (fun jj => dpACellAux wts vals n cols fuel (i + 1) jj) cols
              ((j : Int) - wts.getD i 0) with
          | .error e => .error e
          | .ok r =>
            if vals.getD i 0 < -(2 ^ 63) ∨ 2 ^ 63 ≤ vals.getD i 0 then
              .error .overflowError
            else .ok (max skip (wrap64 (vals.getD i 0 + r)))
        else .ok (max skip (-(10 ^ 9)))

/-- Embeds `KnapsackSolver.dp_a`: `np.full((n+1, capacity+1), -10**9)`
fails on a negative dimension; otherwise the answer is `dp[0][capacity]`,
read through `npReadE` (with `capacity = -1` the grid has 0 columns and
the read raises `IndexError`). -/
def dp_a (s : KnapsackSolver) : Except PyError Int :=
  if s.capacity + 1 < 0 then .error .negativeDimensions
  else
    npReadE (fun j => dpACellAux s.weights s.values s.n (s.capacity + 1).toNat s.n 0 j)
      (s.capacity + 1).toNat s.capacity

/-- The pure value of the recursion inside `dfs_b` at state `(k, w)`:
`g(0, w) = 0`, and for `k ≥ 1`,
`g(k, w) = max(g(k-1, w), take)` with
`take = values[k-1] + g(k-1, w - weights[k-1])` when `w >= weights[k-1]`
and the sentinel `-10^9` otherwise. -/
def gBAux (wts vals : List Int) : Nat → Int → Int
  | 0, _ => 0
  | k + 1, w =>
    max (gBAux wts vals k w)
      (if wts.getD k 0 ≤ w then vals.getD k 0 + gBAux wts vals k (w - wts.getD k 0)
       else -(10 ^ 9))

/-- Embeds the inner `dfs` of `KnapsackSolver.dfs_b` with the memo
dictionary threaded as state. -/
def dfsAuxB (wts vals : List Int) : Nat → Int → Memo → Int × Memo
  | 0, _, memo => (0, memo)
  | k + 1, w, memo =>
    match lookupMemo memo (k + 1, w) with
    | some x => (x, memo)
    | none =>
      let p1 := dfsAuxB wts vals k w memo
      let p2 :=
        if wts.getD k 0 ≤ w then
          let q := dfsAuxB wts vals k (w - wts.getD k 0) p1.2
          (vals.getD k 0 + q.1, q.2)
        else (-(10 ^ 9), p1.2)
      let best := max p1.1 p2.1
      (best, ((k + 1, w), best) :: p2.2)

/-- Embeds `KnapsackSolver.dfs_b`: fresh memo, top-level call
`dfs(n, capacity)`. -/
def dfs_b (s : KnapsackSolver) : Int :=
  (dfsAuxB s.weights s.values s.n s.capacity []).1

/-- A float64 value as it arises in `dp_b`'s grid.  Every double produced
there from integer inputs is integer-valued (doubles below 2^53 are exact
integers, and above 2^53 every representable double is an integer), so a
finite cell is carried as its exact integer value; additions can overflow
to an infinity, and `nan` (reachable in IEEE arithmetic only as
`inf + (-inf)`, which this data flow never produces) is kept for
totality. -/
inductive F64 where
  | val : Int → F64
  | inf : F64
  | ninf : F64
  | nan : F64
deriving DecidableEq

/-- Rounds a natural number to float64 precision: 53 significant bits,
round to nearest, ties to even.  Below 2^53 every integer is exact;
otherwise the number is rounded to the nearest multiple of its ulp
`2^(e-52)` where `2^e <= n < 2^(e+1)`. -/
def roundNat (n : Nat) : Nat :=
  if n < 2 ^ 53 then n
  else
    let u := 2 ^ (n.log2 - 52)
    let q := n / u
    let r := n % u
    if 2 * r < u then q * u
    else if 2 * r > u then (q + 1) * u
    else if q % 2 = 0 then q * u else (q + 1) * u

/-- Rounds an integer to the nearest float64: exact below 2^53, rounded to
53-bit precision above, and an infinity once the rounded magnitude
reaches 2^1024 (beyond the largest finite double). -/
def roundF64 (x : Int) : F64 :=
  if x.natAbs < 2 ^ 53 then .val x
  else
    let m := roundNat x.natAbs
    if 2 ^ 1024 ≤ m then (if x < 0 then .ninf else .inf)
    else if x < 0 then .val (-(m : Int)) else .val (m : Int)

/-- Converting a Python int for the float64 addition
`values[k-1] + dp[k-1][...]`: numpy rounds it to a double, raising
OverflowError when it is too large for a finite double. -/
def pyIntToF64 (v : Int) : Except PyError F64 :=
  match roundF64 v with
  | .inf => .error .overflowError
  | .ninf => .error .overflowError
  | x => .ok x

/-- IEEE float64 addition on the integer-valued doubles of the grid: the
exact sum rounded to precision (overflowing to an infinity); infinities
absorb finite values, and `inf + (-inf)` is nan (unreachable here). -/
def addF64 : F64 → F64 → F64
  | .val a, .val b => roundF64 (a + b)
  | .nan, _ => .nan
  | _, .nan => .nan
  | .inf, .ninf => .nan
  | .ninf, .inf => .nan
  | .inf, _ => .inf
  | _, .inf => .inf
  | .ninf, _ => .ninf
  | _, .ninf => .ninf

/-- Python's `max` on the grid values: comparison of a double with an int
or another double is exact, so on integer-valued doubles it is the exact
integer maximum; an infinity dominates. -/
def maxF64 : F64 → F64 → F64
  | .val a, .val b => .val (max a b)
  | .nan, y => y
  | x, .nan => x
  | .inf, _ => .inf
  | _, .inf => .inf
  | .ninf, y => y
  | x, .ninf => x

/-- The final `int(dp[n][capacity])`: exact on the integer-valued finite
cells, OverflowError on an infinity, ValueError (modelled as `nanError`)
on nan. -/
def f64toInt : F64 → Except PyError Int
  | .val x => .ok x
  | .inf => .error .overflowError
  | .ninf => .error .overflowError
  | .nan => .error .nanError

/-- The cell `dp[k][j]` of `dp_b`'s grid: row 0 is the all-zero
`np.zeros` row (float64), and row `k` is computed from row `k - 1` by the
source loop's recurrence, with the read `dp[k-1][w - weights[k-1]]` going
through `npReadE`, the Python int `values[k-1]` converted by
`pyIntToF64`, the take sum formed by `addF64`, and the `-10**9` sentinel
(exactly representable) compared by `maxF64`. -/
def dpBCell (wts vals : List Int) (cols : Nat) : Nat → Nat → Except PyError F64
  | 0, _ => .ok (.val 0)
  | k + 1, j =>
    match dpBCell wts vals cols k j with
    | .error e => .error e
    | .ok skip =>
      if wts.getD k 0 ≤ (j : Int) then
        match npReadE (fun jj => dpBCell wts vals cols k jj) cols
            ((j : Int) - wts.getD k 0) with
        | .error e => .error e
        | .ok r =>
          match pyIntToF64 (vals.getD k 0) with
          | .error e => .error e
          | .ok vF => .ok (maxF64 skip (addF64 vF r))
      else .ok (maxF64 skip (.val (-(10 ^ 9))))

/-- Embeds `KnapsackSolver.dp_b`: `np.zeros((n+1, capacity+1))` fails on a
negative dimension; otherwise the answer is `int(dp[n][capacity])`, the
cell read through `npReadE` and converted by `f64toInt`. -/
def dp_b (s : KnapsackSolver) : Except PyError Int :=
  if s.capacity + 1 < 0 then .error .negativeDimensions
  else
    match npReadE (fun j => dpBCell s.weights s.values (s.capacity + 1).toNat s.n j)
        (s.capacity + 1).toNat s.capacity with
    | .error e => .error e
    | .ok f => f64toInt f

/-- Embeds `KnapsackSolver.solve_all`: runs the four methods in source
order (an exception from `dp_a` or `dp_b` propagates), collects the
results keyed by method name, and raises
`ValueError(f"Inconsistent results: {results}")` — modelled as
`PyError.inconsistentResults` carrying the results — unless the set of
the four values has exactly one element (`List.dedup` models `set`). -/
def solve_all (s : KnapsackSolver) : Except PyError (List (String × Int)) :=
  match dp_a s with
  | .error e => .error e
  | .ok b =>
    match dp_b s with
    | .error e => .error e
    | .ok d =>
      let results : List (String × Int) :=
        [("DFS_A", dfs_a s), ("DP_A", b), ("DFS_B", dfs_b s), ("DP_B", d)]
      if [dfs_a s, b, dfs_b s, d].dedup.length ≠ 1 then
        .error (.inconsistentResults results)
      else .ok results

/-- Modelled from the spec: the §4.1 recurrence of StateSpaceA with the
infeasible take branch structurally excluded from the `max` (fuel form).
`f(i, c) = 0` if `i >= n` or `c <= 0`, otherwise
`f(i, c) = max(f(i+1, c), values[i] + f(i+1, c - weights[i]))` when
`c >= weights[i]` and `f(i+1, c)` alone when the item does not fit. -/
def fSpecAAux (wts vals : List Int) (n : Nat) : Nat → Nat → Int → Int
  | 0, _, _ => 0
  | fuel + 1, i, c =>
    if n ≤ i ∨ c ≤ 0 then 0
    else if wts.getD i 0 ≤ c then
      max (fSpecAAux wts vals n fuel (i + 1) c)
        (vals.getD i 0 + fSpecAAux wts vals n fuel (i + 1) (c - wts.getD i 0))
    else fSpecAAux wts vals n fuel (i + 1) c

/-- Modelled from the spec: the §4.1 StateSpaceA recurrence at `(i, c)`. -/
def fSpecA (wts vals : List Int) (n : Nat) (i : Nat) (c : Int) : Int :=
  fSpecAAux wts vals n (n - i) i c

/-- Modelled from the spec: the §4.2 recurrence of StateSpaceB with the
infeasible take branch structurally excluded from the `max`:
`g(0, w) = 0` and for `k ≥ 1`
`g(k, w) = max(g(k-1, w), values[k-1] + g(k-1, w - weights[k-1]))` when
`w >= weights[k-1]`, and `g(k-1, w)` alone otherwise. -/
def gSpecB (wts vals : List Int) : Nat → Int → Int
  | 0, _ => 0
  | k + 1, w =>
    if wts.getD k 0 ≤ w then
      max (gSpecB wts vals k w) (vals.getD k 0 + gSpecB wts vals k (w - wts.getD k 0))
    else gSpecB wts vals k w

/-- The pure integer value of `dp_a`'s grid cell `dp[i][c]`, in the same
fuel form as `fAAux`: the same recurrence as the `dfs_a` recursion but
without the `c <= 0` cutoff — the bottom-up loop computes every column,
including column 0, from the recurrence, so a weight-0 item is credited
even at capacity 0. -/
def hAAux (wts vals : List Int) (n : Nat) : Nat → Nat → Int → Int
  | 0, _, _ => 0
  | fuel + 1, i, c =>
    if n ≤ i then 0
    else
      max (hAAux wts vals n fuel (i + 1) c)
        (if wts.getD i 0 ≤ c then vals.getD i 0 + hAAux wts vals n fuel (i + 1) (c - wts.getD i 0)
         else -(10 ^ 9))

/-- Total weight of a selection of items (weight/value pairs). -/
def sumW (l : List (Int × Int)) : Int := (l.map Prod.fst).sum

/-- Total value of a selection of items (weight/value pairs). -/
def sumV (l : List (Int × Int)) : Int := (l.map Prod.snd).sum

/-- Reference 0/1-knapsack value over an item list, peeling the head item:
spelled with the same sentinel shape as the source recurrences. -/
def knap : List (Int × Int) → Int → Int
  | [], _ => 0
  | p :: rest, c =>
    max (knap rest c) (if p.1 ≤ c then p.2 + knap rest (c - p.1) else -(10 ^ 9))

/-- `b` is the maximum total value over all feasible subsets (sublists) of
the item list `l` under capacity `c`: some feasible subset attains `b`,
and every feasible subset's value is at most `b`. -/
def IsBest (l : List (Int × Int)) (c : Int) (b : Int) : Prop :=
  (∃ t ∈ l.sublists, sumW t ≤ c ∧ sumV t = b) ∧
    ∀ t ∈ l.sublists, sumW t ≤ c → sumV t ≤ b

instance isBestDecidable (l : List (Int × Int)) (c b : Int) : Decidable (IsBest l c b) :=
  inferInstanceAs (Decidable ((∃ t ∈ l.sublists, sumW t ≤ c ∧ sumV t = b) ∧
    ∀ t ∈ l.sublists, sumW t ≤ c → sumV t ≤ b))

/-- State-passing view of a `dfs_a` method call: the Python method reads
`self` but never assigns any attribute (its memo is a local), so the
instance it leaves behind is the one it received. -/
def dfs_a_call (s : KnapsackSolver) : Int × KnapsackSolver := (dfs_a s, s)

/-- State-passing view of a `dp_a` method call: `dp_a` never assigns any
attribute of `self` (its grid is a local). -/
def dp_a_call (s : KnapsackSolver) : Except PyError Int × KnapsackSolver := (dp_a s, s)

/-- State-passing view of a `dfs_b` method call: `dfs_b` never assigns any
attribute of `self` (its memo is a local). -/
def dfs_b_call (s : KnapsackSolver) : Int × KnapsackSolver := (dfs_b s, s)

/-- State-passing view of a `dp_b` method call: `dp_b` never assigns any
attribute of `self` (its grid is a local). -/
def dp_b_call (s : KnapsackSolver) : Except PyError Int × KnapsackSolver := (dp_b s, s)

theorem fAAux_nonneg (wts vals : List Int) (n : Nat) :
    ∀ fuel i (c : Int), 0 ≤ fAAux wts vals n fuel i c := by
  intro fuel
  induction fuel with
  | zero => intro i c; simp [fAAux]
  | succ fuel ih =>
    intro i c
    simp only [fAAux]
    split
    · exact le_refl 0
    · exact le_max_of_le_left (ih (i + 1) c)

theorem fAAux_congr (wts vals : List Int) (n : Nat) :
    ∀ f1 f2 i (c : Int), n - i ≤ f1 → n - i ≤ f2 →
      fAAux wts vals n f1 i c = fAAux wts vals n f2 i c := by
  intro f1
  induction f1 with
  | zero =>
    intro f2 i c h1 h2
    have hn : n ≤ i := by omega
    cases f2 with
    | zero => rfl
    | succ f2 => simp [fAAux, hn]
  | succ f1 ih =>
    intro f2 i c h1 h2
    cases f2 with
    | zero =>
      have hn : n ≤ i := by omega
      simp [fAAux, hn]
    | succ f2 =>
      by_cases hb : n ≤ i ∨ c ≤ 0
      · simp [fAAux, hb]
      · have hi : i < n := by
          rcases not_or.mp hb with ⟨h, _⟩
          omega
        simp only [fAAux, if_neg hb]
        rw [ih f2 (i + 1) c (by omega) (by omega)]
        congr 1
        split
        · rw [ih f2 (i + 1) _ (by omega) (by omega)]
        · rfl

theorem fA_eq (wts vals : List Int) (n i : Nat) (c : Int) :
    fA wts vals n i c =
      if n ≤ i ∨ c ≤ 0 then 0
      else max (fA wts vals n (i + 1) c)
        (if wts.getD i 0 ≤ c then vals.getD i 0 + fA wts vals n (i + 1) (c - wts.getD i 0)
         else -(10 ^ 9)) := by
  by_cases hni : n ≤ i
  · have h0 : n - i = 0 := by omega
    simp [fA, h0, fAAux, hni]
  · have h1 : n - i = (n - (i + 1)) + 1 := by omega
    simp only [fA]
    rw [h1]
    rfl

theorem fA_nonneg (wts vals : List Int) (n i : Nat) (c : Int) :
    0 ≤ fA wts vals n i c :=
  fAAux_nonneg wts vals n (n - i) i c

theorem fAAux_eq_fSpecAAux (wts vals : List Int) (n : Nat) :
    ∀ fuel i (c : Int), fAAux wts vals n fuel i c = fSpecAAux wts vals n fuel i c := by
  intro fuel
  induction fuel with
  | zero => intro i c; rfl
  | succ fuel ih =>
    intro i c
    by_cases hb : n ≤ i ∨ c ≤ 0
    · simp [fAAux, fSpecAAux, hb]
    · by_cases hg : wts.getD i 0 ≤ c
      · simp only [fAAux, fSpecAAux, if_neg hb, if_pos hg, ih]
      · simp only [fAAux, fSpecAAux, if_neg hb, if_neg hg]
        rw [max_eq_left, ih]
        exact le_trans (by norm_num) (fAAux_nonneg wts vals n fuel (i + 1) c)

theorem fA_eq_fSpecA (wts vals : List Int) (n i : Nat) (c : Int) :
    fA wts vals n i c = fSpecA wts vals n i c :=
  fAAux_eq_fSpecAAux wts vals n (n - i) i c

theorem gBAux_nonneg (wts vals : List Int) :
    ∀ k (w : Int), 0 ≤ gBAux wts vals k w := by
  intro k
  induction k with
  | zero => intro w; simp [gBAux]
  | succ k ih =>
    intro w
    exact le_max_of_le_left (ih w)

theorem gBAux_eq_gSpecB (wts vals : List Int) :
    ∀ k (w : Int), gBAux wts vals k w = gSpecB wts vals k w := by
  intro k
  induction k with
  | zero => intro w; rfl
  | succ k ih =>
    intro w
    by_cases hg : wts.getD k 0 ≤ w
    · simp only [gBAux, gSpecB, if_pos hg, ih]
    · simp only [gBAux, gSpecB, if_neg hg]
      rw [max_eq_left, ih]
      exact le_trans (by norm_num) (gBAux_nonneg wts vals k w)

theorem lookupMemo_sound (F : Nat → Int → Int) :
    ∀ (m : Memo), (∀ e ∈ m, e.2 = F e.1.1 e.1.2) →
      ∀ q x, lookupMemo m q = some x → x = F q.1 q.2 := by
  intro m
  induction m with
  | nil => intro _ q x h; simp [lookupMemo] at h
  | cons e rest ih =>
    intro hm q x h
    simp only [lookupMemo] at h
    split at h
    · rename_i heq
      injection h with h'
      rw [← h', ← heq]
      exact hm e (List.mem_cons_self e rest)
    · exact ih (fun a ha => hm a (List.mem_cons_of_mem e ha)) q x h

theorem dfsAuxA_ok (wts vals : List Int) (n : Nat) :
    ∀ fuel i (c : Int) (m : Memo), n - i ≤ fuel →
      (∀ e ∈ m, e.2 = fA wts vals n e.1.1 e.1.2) →
      (dfsAuxA wts vals n fuel i c m).1 = fA wts vals n i c ∧
        ∀ e ∈ (dfsAuxA wts vals n fuel i c m).2, e.2 = fA wts vals n e.1.1 e.1.2 := by
  intro fuel
  induction fuel with
  | zero =>
    intro i c m hf hm
    have hn : n ≤ i := by omega
    constructor
    · rw [fA_eq]
      simp [dfsAuxA, hn]
    · simpa [dfsAuxA] using hm
  | succ fuel ih =>
    intro i c m hf hm
    by_cases hb : n ≤ i ∨ c ≤ 0
    · constructor
      · rw [fA_eq]
        simp [dfsAuxA, hb]
      · simpa [dfsAuxA, hb] using hm
    · have hi : i < n := by rcases not_or.mp hb with ⟨h, _⟩; omega
      simp only [dfsAuxA]
      rw [if_neg hb]
      cases hlk : lookupMemo m (i, c) with
      | some x =>
        exact ⟨lookupMemo_sound (fA wts vals n) m hm (i, c) x hlk, hm⟩
      | none =>
        dsimp only
        by_cases hg : wts.getD i 0 ≤ c
        · rw [if_pos hg]
          dsimp only
          obtain ⟨h11, h12⟩ := ih (i + 1) c m (by omega) hm
          obtain ⟨h21, h22⟩ :=
            ih (i + 1) (c - wts.getD i 0) (dfsAuxA wts vals n fuel (i + 1) c m).2 (by omega) h12
          constructor
          · rw [h11, h21, fA_eq wts vals n i c, if_neg hb, if_pos hg]
          · intro e he
            rcases List.mem_cons.mp he with rfl | he'
            · dsimp only
              rw [h11, h21, fA_eq wts vals n i c, if_neg hb, if_pos hg]
            · exact h22 e he'
        · rw [if_neg hg]
          dsimp only
          obtain ⟨h11, h12⟩ := ih (i + 1) c m (by omega) hm
          constructor
          · rw [h11, fA_eq wts vals n i c, if_neg hb, if_neg hg]
          · intro e he
            rcases List.mem_cons.mp he with rfl | he'
            · dsimp only
              rw [h11, fA_eq wts vals n i c, if_neg hb, if_neg hg]
            · exact h12 e he'

theorem dfs_a_eq_fA (s : KnapsackSolver) :
    dfs_a s = fA s.weights s.values s.n 0 s.capacity :=
  (dfsAuxA_ok s.weights s.values s.n s.n 0 s.capacity [] (by omega) (by simp)).1

theorem dfsAuxB_ok (wts vals : List Int) :
    ∀ k (w : Int) (m : Memo),
      (∀ e ∈ m, e.2 = gBAux wts vals e.1.1 e.1.2) →
      (dfsAuxB wts vals k w m).1 = gBAux wts vals k w ∧
        ∀ e ∈ (dfsAuxB wts vals k w m).2, e.2 = gBAux wts vals e.1.1 e.1.2 := by
  intro k
  induction k with
  | zero => intro w m hm; exact ⟨rfl, hm⟩
  | succ k ih =>
    intro w m hm
    simp only [dfsAuxB]
    cases hlk : lookupMemo m (k + 1, w) with
    | some x =>
      exact ⟨lookupMemo_sound (gBAux wts vals) m hm (k + 1, w) x hlk, hm⟩
    | none =>
      dsimp only
      by_cases hg : wts.getD k 0 ≤ w
      · rw [if_pos hg]
        dsimp only
        obtain ⟨h11, h12⟩ := ih w m hm
        obtain ⟨h21, h22⟩ := ih (w - wts.getD k 0) (dfsAuxB wts vals k w m).2 h12
        constructor
        · rw [h11, h21]
          simp only [gBAux]
          rw [if_pos hg]
        · intro e he
          rcases List.mem_cons.mp he with rfl | he'
          · dsimp only
            rw [h11, h21]
            simp only [gBAux]
            rw [if_pos hg]
          · exact h22 e he'
      · rw [if_neg hg]
        dsimp only
        obtain ⟨h11, h12⟩ := ih w m hm
        constructor
        · rw [h11]
          simp only [gBAux]
          rw [if_neg hg]
        · intro e he
          rcases List.mem_cons.mp he with rfl | he'
          · dsimp only
            rw [h11]
            simp only [gBAux]
            rw [if_neg hg]
          · exact h12 e he'

theorem dfs_b_eq_gB (s : KnapsackSolver) :
    dfs_b s = gBAux s.weights s.values s.n s.capacity :=
  (dfsAuxB_ok s.weights s.values s.n s.capacity [] (by simp)).1

theorem getD_nonneg (l : List Int) (hw : ∀ x ∈ l, 0 ≤ x) (i : Nat) : 0 ≤ l.getD i 0 := by
  by_cases h : i < l.length
  · rw [List.getD_eq_getElem l 0 h]
    exact hw _ (List.getElem_mem h)
  · rw [List.getD_eq_default l 0 (by omega)]

theorem hAAux_nonneg (wts vals : List Int) (n : Nat) :
    ∀ fuel i (c : Int), 0 ≤ hAAux wts vals n fuel i c := by
  intro fuel
  induction fuel with
  | zero => intro i c; simp [hAAux]
  | succ fuel ih =>
    intro i c
    simp only [hAAux]
    split
    · exact le_refl 0
    · exact le_max_of_le_left (ih (i + 1) c)

theorem wrap64_eq_self (x : Int) (h1 : -(2 ^ 63) ≤ x) (h2 : x < 2 ^ 63) :
    wrap64 x = x := by
  simp only [wrap64]
  omega

theorem roundF64_val_of_small (x : Int) (h : x.natAbs < 2 ^ 53) :
    roundF64 x = .val x := by
  simp only [roundF64]
  rw [if_pos h]

theorem pyIntToF64_small (v : Int) (h : v.natAbs < 2 ^ 53) :
    pyIntToF64 v = .ok (.val v) := by
  simp only [pyIntToF64, roundF64_val_of_small v h]

theorem dropSum_le_sum (vals : List Int) (hv : ∀ x ∈ vals, 0 ≤ x) (i : Nat) :
    (vals.drop i).sum ≤ vals.sum := by
  conv_rhs => rw [← List.take_append_drop i vals]
  rw [List.sum_append]
  have h0 : 0 ≤ (vals.take i).sum :=
    List.sum_nonneg fun x hx => hv x (List.mem_of_mem_take hx)
  linarith

theorem takeSum_le_sum (vals : List Int) (hv : ∀ x ∈ vals, 0 ≤ x) (i : Nat) :
    (vals.take i).sum ≤ vals.sum := by
  conv_rhs => rw [← List.take_append_drop i vals]
  rw [List.sum_append]
  have h0 : 0 ≤ (vals.drop i).sum :=
    List.sum_nonneg fun x hx => hv x (List.mem_of_mem_drop hx)
  linarith

theorem hAAux_le_dropSum (wts vals : List Int) (n : Nat)
    (hv : ∀ x ∈ vals, 0 ≤ x) (hnv : n ≤ vals.length) :
    ∀ fuel i (c : Int), hAAux wts vals n fuel i c ≤ (vals.drop i).sum := by
  have hdropnn : ∀ i, 0 ≤ (vals.drop i).sum := fun i =>
    List.sum_nonneg fun x hx => hv x (List.mem_of_mem_drop hx)
  intro fuel
  induction fuel with
  | zero => intro i c; exact hdropnn i
  | succ fuel ih =>
    intro i c
    by_cases hni : n ≤ i
    · simp only [hAAux]
      rw [if_pos hni]
      exact hdropnn i
    · have hiv : i < vals.length := by omega
      have hd : vals.drop i = vals[i] :: vals.drop (i + 1) := List.drop_eq_getElem_cons hiv
      have hvi : 0 ≤ vals[i] := hv _ (List.getElem_mem hiv)
      have hgd : vals.getD i 0 = vals[i] := List.getD_eq_getElem vals 0 hiv
      simp only [hAAux]
      rw [if_neg hni, hd, List.sum_cons]
      apply max_le
      · have h1 := ih (i + 1) c
        linarith
      · split
        · have h1 := ih (i + 1) (c - wts.getD i 0)
          rw [hgd]
          linarith
        · have h1 := hdropnn (i + 1)
          have h9 : -((10 : Int) ^ 9) ≤ 0 := by norm_num
          linarith

theorem gBAux_le_takeSum (wts vals : List Int) (hv : ∀ x ∈ vals, 0 ≤ x) :
    ∀ k, k ≤ vals.length → ∀ (w : Int), gBAux wts vals k w ≤ (vals.take k).sum := by
  intro k
  induction k with
  | zero => intro _ w; simp [gBAux]
  | succ k ih =>
    intro hk w
    have hkv : k < vals.length := by omega
    have htake : vals.take (k + 1) = vals.take k ++ [vals[k]] := by
      rw [List.take_succ, List.getElem?_eq_getElem hkv]
      rfl
    have hvk : 0 ≤ vals[k] := hv _ (List.getElem_mem hkv)
    have hgd : vals.getD k 0 = vals[k] := List.getD_eq_getElem vals 0 hkv
    have htsum : 0 ≤ (vals.take k).sum :=
      List.sum_nonneg fun x hx => hv x (List.mem_of_mem_take hx)
    rw [htake, List.sum_append, List.sum_cons, List.sum_nil]
    simp only [gBAux]
    apply max_le
    · have h1 := ih (by omega) w
      linarith
    · split
      · rw [hgd]
        have h1 := ih (by omega) (w - wts.getD k 0)
        linarith
      · have h9 : -((10 : Int) ^ 9) ≤ 0 := by norm_num
        linarith

theorem dpACellAux_ok (wts vals : List Int) (n cols : Nat)
    (hw : ∀ x ∈ wts, 0 ≤ x) (hv : ∀ x ∈ vals, 0 ≤ x)
    (hnv : n ≤ vals.length) (hS : vals.sum < 2 ^ 63) :
    ∀ fuel i j, j < cols →
      dpACellAux wts vals n cols fuel i j = .ok (hAAux wts vals n fuel i (j : Int)) := by
  intro fuel
  induction fuel with
  | zero => intro i j hj; rfl
  | succ fuel ih =>
    intro i j hj
    by_cases hn : n ≤ i
    · simp [dpACellAux, hAAux, hn]
    · have hiv : i < vals.length := by omega
      have hvi0 : 0 ≤ vals.getD i 0 := getD_nonneg vals hv i
      have hviS : vals.getD i 0 ≤ vals.sum := by
        rw [List.getD_eq_getElem vals 0 hiv]
        exact List.single_le_sum hv _ (List.getElem_mem hiv)
      simp only [dpACellAux, hAAux]
      rw [if_neg hn, if_neg hn, ih (i + 1) j hj]
      dsimp only
      by_cases hg : wts.getD i 0 ≤ (j : Int)
      · rw [if_pos hg, if_pos hg]
        have hwi : 0 ≤ wts.getD i 0 := getD_nonneg wts hw i
        have hc1 : (0 : Int) ≤ (j : Int) - wts.getD i 0 := by omega
        have hc2 : (j : Int) - wts.getD i 0 < (cols : Int) := by omega
        simp only [npReadE]
        rw [if_pos (And.intro hc1 hc2)]
        rw [ih (i + 1) ((j : Int) - wts.getD i 0).toNat (by omega)]
        rw [Int.toNat_of_nonneg hc1]
        have hr0 : 0 ≤ hAAux wts vals n fuel (i + 1) ((j : Int) - wts.getD i 0) :=
          hAAux_nonneg wts vals n fuel (i + 1) _
        have hrS : hAAux wts vals n fuel (i + 1) ((j : Int) - wts.getD i 0) ≤
            (vals.drop (i + 1)).sum :=
          hAAux_le_dropSum wts vals n hv hnv fuel (i + 1) _
        have hsplit : vals.getD i 0 + (vals.drop (i + 1)).sum ≤ vals.sum := by
          have hd : vals.drop i = vals[i] :: vals.drop (i + 1) :=
            List.drop_eq_getElem_cons hiv
          have h2 := dropSum_le_sum vals hv i
          rw [hd, List.sum_cons] at h2
          rw [List.getD_eq_getElem vals 0 hiv]
          exact h2
        have hconv : ¬(vals.getD i 0 < -(2 ^ 63) ∨ (2 : Int) ^ 63 ≤ vals.getD i 0) := by
          push_neg
          constructor
          · linarith
          · linarith
        dsimp only
        rw [if_neg hconv]
        rw [wrap64_eq_self _ (by linarith) (by linarith)]
      · rw [if_neg hg, if_neg hg]

theorem dp_a_ok (s : KnapsackSolver) (hw : ∀ x ∈ s.weights, 0 ≤ x)
    (hv : ∀ x ∈ s.values, 0 ≤ x) (hnv : s.n ≤ s.values.length)
    (hS : s.values.sum < 2 ^ 63) (hc : 0 ≤ s.capacity) :
    dp_a s = .ok (hAAux s.weights s.values s.n s.n 0 s.capacity) := by
  have hcols : ((s.capacity + 1).toNat : Int) = s.capacity + 1 := by omega
  simp only [dp_a]
  rw [if_neg (by omega)]
  simp only [npReadE]
  rw [if_pos (And.intro hc (by omega))]
  rw [dpACellAux_ok s.weights s.values s.n (s.capacity + 1).toNat hw hv hnv hS s.n 0
    s.capacity.toNat (by omega)]
  rw [Int.toNat_of_nonneg hc]

theorem dpBCell_ok (wts vals : List Int) (cols : Nat)
    (hw : ∀ x ∈ wts, 0 ≤ x) (hv : ∀ x ∈ vals, 0 ≤ x) (hS : vals.sum < 2 ^ 53) :
    ∀ k, k ≤ vals.length → ∀ j, j < cols →
      dpBCell wts vals cols k j = .ok (.val (gBAux wts vals k (j : Int))) := by
  intro k
  induction k with
  | zero => intro _ j hj; rfl
  | succ k ih =>
    intro hk j hj
    have hkv : k < vals.length := by omega
    have hv0 : 0 ≤ vals.getD k 0 := getD_nonneg vals hv k
    have hvS : vals.getD k 0 ≤ vals.sum := by
      rw [List.getD_eq_getElem vals 0 hkv]
      exact List.single_le_sum hv _ (List.getElem_mem hkv)
    simp only [dpBCell, gBAux]
    rw [ih (by omega) j hj]
    dsimp only
    by_cases hg : wts.getD k 0 ≤ (j : Int)
    · rw [if_pos hg, if_pos hg]
      have hwk : 0 ≤ wts.getD k 0 := getD_nonneg wts hw k
      have hc1 : (0 : Int) ≤ (j : Int) - wts.getD k 0 := by omega
      have hc2 : (j : Int) - wts.getD k 0 < (cols : Int) := by omega
      simp only [npReadE]
      rw [if_pos (And.intro hc1 hc2)]
      rw [ih (by omega) ((j : Int) - wts.getD k 0).toNat (by omega)]
      rw [Int.toNat_of_nonneg hc1]
      have hr0 : 0 ≤ gBAux wts vals k ((j : Int) - wts.getD k 0) :=
        gBAux_nonneg wts vals k _
      have hrS : gBAux wts vals k ((j : Int) - wts.getD k 0) ≤ (vals.take k).sum :=
        gBAux_le_takeSum wts vals hv k (by omega) _
      have hsplit : vals.getD k 0 + (vals.take k).sum ≤ vals.sum := by
        have htk : (vals.take (k + 1)).sum = (vals.take k).sum + vals[k] := by
          rw [List.take_succ, List.getElem?_eq_getElem hkv, List.sum_append]
          simp
        have hle := takeSum_le_sum vals hv (k + 1)
        rw [htk] at hle
        rw [List.getD_eq_getElem vals 0 hkv]
        linarith
      have hvlt : vals.getD k 0 < 2 ^ 53 := by linarith
      rw [pyIntToF64_small _ (by omega)]
      dsimp only
      simp only [addF64]
      have hsum0 : 0 ≤ vals.getD k 0 + gBAux wts vals k ((j : Int) - wts.getD k 0) := by
        linarith
      have hsumlt : vals.getD k 0 + gBAux wts vals k ((j : Int) - wts.getD k 0) < 2 ^ 53 := by
        linarith
      rw [roundF64_val_of_small _ (by omega)]
      simp only [maxF64]
    · rw [if_neg hg, if_neg hg]
      simp only [maxF64]

theorem dp_b_ok (s : KnapsackSolver) (hw : ∀ x ∈ s.weights, 0 ≤ x)
    (hv : ∀ x ∈ s.values, 0 ≤ x) (hnv : s.n ≤ s.values.length)
    (hS : s.values.sum < 2 ^ 53) (hc : 0 ≤ s.capacity) :
    dp_b s = .ok (gBAux s.weights s.values s.n s.capacity) := by
  have hcols : ((s.capacity + 1).toNat : Int) = s.capacity + 1 := by omega
  simp only [dp_b]
  rw [if_neg (by omega)]
  simp only [npReadE]
  rw [if_pos (And.intro hc (by omega))]
  rw [dpBCell_ok s.weights s.values (s.capacity + 1).toNat hw hv hS s.n hnv s.capacity.toNat
    (by omega)]
  rw [Int.toNat_of_nonneg hc]
  rfl

theorem fAAux_mono (wts vals : List Int) (n : Nat) :
    ∀ fuel i (c1 c2 : Int), c1 ≤ c2 →
      fAAux wts vals n fuel i c1 ≤ fAAux wts vals n fuel i c2 := by
  intro fuel
  induction fuel with
  | zero => intro i c1 c2 _; simp [fAAux]
  | succ fuel ih =>
    intro i c1 c2 hc
    by_cases hni : n ≤ i
    · simp [fAAux, hni]
    · by_cases hc1 : c1 ≤ 0
      · have h0 : fAAux wts vals n (fuel + 1) i c1 = 0 := by simp [fAAux, hc1]
        rw [h0]
        exact fAAux_nonneg wts vals n (fuel + 1) i c2
      · have hc2 : ¬ c2 ≤ 0 := by omega
        simp only [fAAux]
        rw [if_neg (not_or.mpr ⟨hni, hc1⟩), if_neg (not_or.mpr ⟨hni, hc2⟩)]
        by_cases hg1 : wts.getD i 0 ≤ c1
        · have hg2 : wts.getD i 0 ≤ c2 := le_trans hg1 hc
          rw [if_pos hg1, if_pos hg2]
          exact max_le_max (ih (i + 1) c1 c2 hc)
            (add_le_add_left (ih (i + 1) _ _ (by omega)) _)
        · rw [if_neg hg1]
          apply max_le
          · exact le_max_of_le_left (ih (i + 1) c1 c2 hc)
          · exact le_max_of_le_left
              (le_trans (by norm_num) (fAAux_nonneg wts vals n fuel (i + 1) c2))

theorem gBAux_mono (wts vals : List Int) :
    ∀ k (w1 w2 : Int), w1 ≤ w2 → gBAux wts vals k w1 ≤ gBAux wts vals k w2 := by
  intro k
  induction k with
  | zero => intro w1 w2 _; simp [gBAux]
  | succ k ih =>
    intro w1 w2 hw
    simp only [gBAux]
    by_cases hg1 : wts.getD k 0 ≤ w1
    · have hg2 : wts.getD k 0 ≤ w2 := le_trans hg1 hw
      rw [if_pos hg1, if_pos hg2]
      exact max_le_max (ih w1 w2 hw) (add_le_add_left (ih _ _ (by omega)) _)
    · rw [if_neg hg1]
      apply max_le
      · exact le_max_of_le_left (ih w1 w2 hw)
      · exact le_max_of_le_left (le_trans (by norm_num) (gBAux_nonneg wts vals k w2))

theorem hAAux_mono (wts vals : List Int) (n : Nat) :
    ∀ fuel i (c1 c2 : Int), c1 ≤ c2 →
      hAAux wts vals n fuel i c1 ≤ hAAux wts vals n fuel i c2 := by
  intro fuel
  induction fuel with
  | zero => intro i c1 c2 _; simp [hAAux]
  | succ fuel ih =>
    intro i c1 c2 hc
    by_cases hni : n ≤ i
    · simp [hAAux, hni]
    · simp only [hAAux]
      rw [if_neg hni, if_neg hni]
      by_cases hg1 : wts.getD i 0 ≤ c1
      · have hg2 : wts.getD i 0 ≤ c2 := le_trans hg1 hc
        rw [if_pos hg1, if_pos hg2]
        exact max_le_max (ih (i + 1) c1 c2 hc)
          (add_le_add_left (ih (i + 1) _ _ (by omega)) _)
      · rw [if_neg hg1]
        apply max_le
        · exact le_max_of_le_left (ih (i + 1) c1 c2 hc)
        · exact le_max_of_le_left
            (le_trans (by norm_num) (hAAux_nonneg wts vals n fuel (i + 1) c2))

theorem hAAux_zero (wts vals : List Int) (n : Nat) (hn : n ≤ wts.length)
    (hw : ∀ x ∈ wts, 0 < x) :
    ∀ fuel i (c : Int), c ≤ 0 → hAAux wts vals n fuel i c = 0 := by
  intro fuel
  induction fuel with
  | zero => intro i c _; rfl
  | succ fuel ih =>
    intro i c hc
    by_cases hni : n ≤ i
    · simp [hAAux, hni]
    · have hi : i < wts.length := by omega
      have hgt : 0 < wts.getD i 0 := by
        rw [List.getD_eq_getElem wts 0 hi]
        exact hw _ (List.getElem_mem hi)
      simp only [hAAux]
      rw [if_neg hni, if_neg (by omega), ih (i + 1) c hc]
      rw [max_eq_left (by norm_num : -((10 : Int) ^ 9) ≤ 0)]

theorem fAAux_eq_hAAux (wts vals : List Int) (n : Nat) (hn : n ≤ wts.length)
    (hw : ∀ x ∈ wts, 0 < x) :
    ∀ fuel i (c : Int), fAAux wts vals n fuel i c = hAAux wts vals n fuel i c := by
  intro fuel
  induction fuel with
  | zero => intro i c; rfl
  | succ fuel ih =>
    intro i c
    by_cases hni : n ≤ i
    · simp [fAAux, hAAux, hni]
    · by_cases hc : c ≤ 0
      · rw [hAAux_zero wts vals n hn hw (fuel + 1) i c hc]
        simp [fAAux, hc]
      · simp only [fAAux, hAAux]
        rw [if_neg (not_or.mpr ⟨hni, hc⟩), if_neg hni, ih (i + 1) c]
        congr 1
        split
        · rw [ih]
        · rfl

theorem sumW_cons (p : Int × Int) (l : List (Int × Int)) : sumW (p :: l) = p.1 + sumW l := by
  simp [sumW]

theorem sumV_cons (p : Int × Int) (l : List (Int × Int)) : sumV (p :: l) = p.2 + sumV l := by
  simp [sumV]

theorem sumW_reverse (l : List (Int × Int)) : sumW l.reverse = sumW l := by
  simp only [sumW, List.map_reverse]
  exact List.sum_reverse _

theorem sumV_reverse (l : List (Int × Int)) : sumV l.reverse = sumV l := by
  simp only [sumV, List.map_reverse]
  exact List.sum_reverse _

theorem sumW_nonneg (l : List (Int × Int)) (h : ∀ p ∈ l, 0 ≤ p.1) : 0 ≤ sumW l := by
  induction l with
  | nil => simp [sumW]
  | cons p r ih =>
    rw [sumW_cons]
    have h1 := h p (List.mem_cons_self p r)
    have h2 := ih fun q hq => h q (List.mem_cons_of_mem p hq)
    omega

theorem knap_nonneg : ∀ (l : List (Int × Int)) (c : Int), 0 ≤ knap l c := by
  intro l
  induction l with
  | nil => intro c; simp [knap]
  | cons p r ih => intro c; exact le_max_of_le_left (ih c)

theorem knap_isBest : ∀ (l : List (Int × Int)) (c : Int), (∀ p ∈ l, 0 ≤ p.1) → 0 ≤ c →
    IsBest l c (knap l c) := by
  intro l
  induction l with
  | nil =>
    intro c _ hc
    constructor
    · exact ⟨[], by simp, by simpa [sumW] using hc, by simp [sumV, knap]⟩
    · intro t ht _
      have ht' : t = [] := List.sublist_nil.mp (List.mem_sublists.mp ht)
      subst ht'
      simp [sumV, knap]
  | cons p r ih =>
    intro c hw hc
    have hw' : ∀ q ∈ r, 0 ≤ q.1 := fun q hq => hw q (List.mem_cons_of_mem p hq)
    have IH1 := ih c hw' hc
    by_cases hg : p.1 ≤ c
    · have IH2 := ih (c - p.1) hw' (by omega)
      constructor
      · rcases le_total (p.2 + knap r (c - p.1)) (knap r c) with hle | hle
        · obtain ⟨t, htmem, htw, htv⟩ := IH1.1
          refine ⟨t, List.mem_sublists.mpr ((List.mem_sublists.mp htmem).cons p), htw, ?_⟩
          rw [htv]
          show knap r c = knap (p :: r) c
          simp only [knap]
          rw [if_pos hg, max_eq_left hle]
        · obtain ⟨t, htmem, htw, htv⟩ := IH2.1
          refine ⟨p :: t, List.mem_sublists.mpr ((List.mem_sublists.mp htmem).cons₂ p),
            ?_, ?_⟩
          · rw [sumW_cons]; omega
          · rw [sumV_cons, htv]
            show p.2 + knap r (c - p.1) = knap (p :: r) c
            simp only [knap]
            rw [if_pos hg, max_eq_right hle]
      · intro t ht htw
        rcases List.sublist_cons_iff.mp (List.mem_sublists.mp ht) with hsub | ⟨t1, rfl, hsub⟩
        · refine le_trans (IH1.2 t (List.mem_sublists.mpr hsub) htw) ?_
          simp only [knap]
          exact le_max_left _ _
        · rw [sumV_cons]
          rw [sumW_cons] at htw
          have ht1 := IH2.2 t1 (List.mem_sublists.mpr hsub) (by omega)
          simp only [knap]
          rw [if_pos hg]
          exact le_max_of_le_right (add_le_add_left ht1 p.2)
    · constructor
      · obtain ⟨t, htmem, htw, htv⟩ := IH1.1
        refine ⟨t, List.mem_sublists.mpr ((List.mem_sublists.mp htmem).cons p), htw, ?_⟩
        rw [htv]
        show knap r c = knap (p :: r) c
        simp only [knap]
        rw [if_neg hg, max_eq_left (le_trans (by norm_num) (knap_nonneg r c))]
      · intro t ht htw
        rcases List.sublist_cons_iff.mp (List.mem_sublists.mp ht) with hsub | ⟨t1, rfl, hsub⟩
        · refine le_trans (IH1.2 t (List.mem_sublists.mpr hsub) htw) ?_
          simp only [knap]
          exact le_max_left _ _
        · exfalso
          rw [sumW_cons] at htw
          have h0 : 0 ≤ sumW t1 := sumW_nonneg t1 fun q hq => hw' q (hsub.subset hq)
          have hp := hw p (List.mem_cons_self p r)
          omega

theorem isBest_unique (l : List (Int × Int)) (c : Int) (b1 b2 : Int)
    (h1 : IsBest l c b1) (h2 : IsBest l c b2) : b1 = b2 := by
  obtain ⟨⟨t1, ht1m, ht1w, ht1v⟩, hub1⟩ := h1
  obtain ⟨⟨t2, ht2m, ht2w, ht2v⟩, hub2⟩ := h2
  have hle1 : b1 ≤ b2 := ht1v ▸ hub2 t1 ht1m ht1w
  have hle2 : b2 ≤ b1 := ht2v ▸ hub1 t2 ht2m ht2w
  omega

theorem isBest_of_reverse (l : List (Int × Int)) (c b : Int)
    (h : IsBest l.reverse c b) : IsBest l c b := by
  obtain ⟨⟨t, htm, htw, htv⟩, hub⟩ := h
  constructor
  · refine ⟨t.reverse, ?_, ?_, ?_⟩
    · have hs := (List.mem_sublists.mp htm).reverse
      rw [List.reverse_reverse] at hs
      exact List.mem_sublists.mpr hs
    · rwa [sumW_reverse]
    · rwa [sumV_reverse]
  · intro t' ht'm ht'w
    have hs := (List.mem_sublists.mp ht'm).reverse
    rw [← sumV_reverse]
    exact hub t'.reverse (List.mem_sublists.mpr hs) (by rwa [sumW_reverse])

theorem hAAux_eq_knap (wts vals : List Int) (n : Nat)
    (hwl : wts.length = n) (hvl : vals.length = n) :
    ∀ fuel i (c : Int), n - i ≤ fuel →
      hAAux wts vals n fuel i c = knap ((wts.zip vals).drop i) c := by
  intro fuel
  induction fuel with
  | zero =>
    intro i c hf
    have hz : (wts.zip vals).drop i = [] := by
      apply List.drop_eq_nil_of_le
      rw [List.length_zip, hwl, hvl]
      omega
    rw [hz]
    rfl
  | succ fuel ih =>
    intro i c hf
    by_cases hni : n ≤ i
    · have hz : (wts.zip vals).drop i = [] := by
        apply List.drop_eq_nil_of_le
        rw [List.length_zip, hwl, hvl]
        omega
      rw [hz]
      simp [hAAux, hni, knap]
    · have hiw : i < wts.length := by omega
      have hiv : i < vals.length := by omega
      have hi : i < (wts.zip vals).length := by rw [List.length_zip, hwl, hvl]; omega
      have hd : (wts.zip vals).drop i = (wts.zip vals)[i] :: (wts.zip vals).drop (i + 1) :=
        List.drop_eq_getElem_cons hi
      have hgz : (wts.zip vals)[i] = (wts[i], vals[i]) := List.getElem_zip
      rw [hd, hgz]
      simp only [hAAux, knap]
      rw [if_neg hni, ih (i + 1) c (by omega)]
      have hga : wts.getD i 0 = wts[i] := List.getD_eq_getElem wts 0 hiw
      have hgb : vals.getD i 0 = vals[i] := List.getD_eq_getElem vals 0 hiv
      rw [hga, hgb]
      congr 1
      split
      · rw [ih (i + 1) _ (by omega)]
      · rfl

theorem gBAux_eq_knap (wts vals : List Int) (n : Nat)
    (hwl : wts.length = n) (hvl : vals.length = n) :
    ∀ k, k ≤ n → ∀ (w : Int),
      gBAux wts vals k w = knap ((wts.zip vals).take k).reverse w := by
  intro k
  induction k with
  | zero => intro _ w; rfl
  | succ k ih =>
    intro hk w
    have hkz : k < (wts.zip vals).length := by rw [List.length_zip, hwl, hvl]; omega
    have hkw : k < wts.length := by omega
    have hkv : k < vals.length := by omega
    have htake : (wts.zip vals).take (k + 1) =
        (wts.zip vals).take k ++ [(wts.zip vals)[k]] := by
      rw [List.take_succ, List.getElem?_eq_getElem hkz]
      rfl
    rw [htake, List.reverse_append]
    simp only [List.reverse_cons, List.reverse_nil, List.nil_append, List.singleton_append]
    have hgz : (wts.zip vals)[k] = (wts[k], vals[k]) := List.getElem_zip
    rw [hgz]
    simp only [gBAux, knap]
    have hga : wts.getD k 0 = wts[k] := List.getD_eq_getElem wts 0 hkw
    have hgb : vals.getD k 0 = vals[k] := List.getD_eq_getElem vals 0 hkv
    rw [hga, hgb, ih (by omega) w]
    congr 1
    split
    · rw [ih (by omega) _]
    · rfl

theorem hAAux_isBest (wts vals : List Int) (n : Nat)
    (hwl : wts.length = n) (hvl : vals.length = n)
    (hw : ∀ x ∈ wts, 0 ≤ x) (c : Int) (hc : 0 ≤ c) :
    IsBest (wts.zip vals) c (hAAux wts vals n n 0 c) := by
  rw [hAAux_eq_knap wts vals n hwl hvl n 0 c (by omega), List.drop_zero]
  refine knap_isBest _ c ?_ hc
  intro p hp
  rcases p with ⟨x, y⟩
  exact hw x (List.of_mem_zip hp).1

theorem gBAux_isBest (wts vals : List Int) (n : Nat)
    (hwl : wts.length = n) (hvl : vals.length = n)
    (hw : ∀ x ∈ wts, 0 ≤ x) (c : Int) (hc : 0 ≤ c) :
    IsBest (wts.zip vals) c (gBAux wts vals n c) := by
  have hzl : (wts.zip vals).length = n := by rw [List.length_zip, hwl, hvl]; omega
  rw [gBAux_eq_knap wts vals n hwl hvl n (le_refl n) c]
  rw [show (wts.zip vals).take n = wts.zip vals from by
    rw [← hzl]; exact List.take_length (wts.zip vals)]
  apply isBest_of_reverse
  refine knap_isBest _ c ?_ hc
  intro p hp
  rcases p with ⟨x, y⟩
  exact hw x (List.of_mem_zip (List.mem_reverse.mp hp)).1

theorem gBAux_neg (wts vals : List Int) (hw : ∀ x ∈ wts, 0 ≤ x) :
    ∀ k (w : Int), w < 0 → gBAux wts vals k w = 0 := by
  intro k
  induction k with
  | zero => intro w _; rfl
  | succ k ih =>
    intro w hwneg
    have h0 : 0 ≤ wts.getD k 0 := getD_nonneg wts hw k
    simp only [gBAux]
    rw [if_neg (by omega), ih w hwneg]
    rw [max_eq_left (by norm_num : -((10 : Int) ^ 9) ≤ 0)]

theorem dp_a_err (s : KnapsackSolver) (h : s.capacity < 0) :
    dp_a s = .error (if s.capacity = -1 then PyError.indexError
      else PyError.negativeDimensions) := by
  by_cases h1 : s.capacity = -1
  · rw [if_pos h1]
    simp only [dp_a]
    rw [if_neg (by omega)]
    simp only [npReadE]
    rw [if_neg (by omega), if_neg (by omega)]
  · rw [if_neg h1]
    simp only [dp_a]
    rw [if_pos (by omega)]

theorem dp_b_err (s : KnapsackSolver) (h : s.capacity < 0) :
    dp_b s = .error (if s.capacity = -1 then PyError.indexError
      else PyError.negativeDimensions) := by
  by_cases h1 : s.capacity = -1
  · rw [if_pos h1]
    simp only [dp_b]
    rw [if_neg (by omega)]
    simp only [npReadE]
    rw [if_neg (by omega), if_neg (by omega)]
  · rw [if_neg h1]
    simp only [dp_b]
    rw [if_pos (by omega)]

theorem dedup4_iff (a b c d : Int) :
    [a, b, c, d].dedup.length = 1 ↔ (a = b ∧ a = c ∧ a = d) := by
  constructor
  · intro h
    obtain ⟨x, hx⟩ := List.length_eq_one.mp h
    have hmem : ∀ y ∈ [a, b, c, d], y = x := by
      intro y hy
      have hyd : y ∈ [a, b, c, d].dedup := List.mem_dedup.mpr hy
      rw [hx] at hyd
      simpa using hyd
    have ha := hmem a (by simp)
    have hb := hmem b (by simp)
    have hc := hmem c (by simp)
    have hd := hmem d (by simp)
    omega
  · rintro ⟨rfl, rfl, rfl⟩
    rw [List.dedup_cons_of_mem (by simp : a ∈ [a, a, a]),
      List.dedup_cons_of_mem (by simp : a ∈ [a, a]),
      List.dedup_cons_of_mem (by simp : a ∈ [a]),
      List.dedup_cons_of_not_mem (by simp), List.dedup_nil]
    rfl

/-- C1: the claim states that on every valid instance the four methods
dfs_a, dp_a, dfs_b, dp_b return the same value.  The code violates it: on
the valid instance weights [1, 0], values [1, 5], capacity 1 (an instance
with a weight-0 item), dfs_a returns 5 — its base case `c <= 0` returns 0
before the weight-0 item can be taken — while dp_a, dfs_b and dp_b all
return 6, so solve_all raises its inconsistency ValueError on a valid
instance, contradicting the code's own "four equivalent representations"
docstring and the solve_all consistency assertion. -/
theorem C1_fourWayDisagreement_eval :
    dfs_a (mkSolver [1, 0] [1, 5] 1) = 5 ∧
    dp_a (mkSolver [1, 0] [1, 5] 1) = .ok 6 ∧
    dfs_b (mkSolver [1, 0] [1, 5] 1) = 6 ∧
    dp_b (mkSolver [1, 0] [1, 5] 1) = .ok 6 ∧
    solve_all (mkSolver [1, 0] [1, 5] 1) =
      .error (.inconsistentResults
        [("DFS_A", 5), ("DP_A", 6), ("DFS_B", 6), ("DP_B", 6)]) := by
  decide

/-- C2: the claim states that all four methods credit a weight-0 item's
value even at capacity 0 (returning the sum of the weight-0 items'
values), handling the case identically.  dp_a, dfs_b and dp_b do; dfs_a
does not: on weights [0], values [5], capacity 0 it returns 0 instead of
5, because its base case `c <= 0` precedes the feasibility-gated take
branch — exactly the special-casing the spec forbids. -/
theorem C2_zeroCapacityWeight0_eval :
    dfs_a (mkSolver [0] [5] 0) = 0 ∧
    dp_a (mkSolver [0] [5] 0) = .ok 5 ∧
    dfs_b (mkSolver [0] [5] 0) = 5 ∧
    dp_b (mkSolver [0] [5] 0) = .ok 5 := by
  decide

/-- C5 counterexample: the claim states that construction fails with an
InvalidInstance condition when the weights and values lengths differ, so
that a mismatched instance never reaches a solver.  The embedded
constructor (`__init__` stores its arguments and computes `n`, with no
validation anywhere in the class) cannot fail: constructing with weights
[1] and values [] succeeds and yields an instance whose `n` (1) differs
from the length of `values` (0) — the mismatched instance does reach the
solvers. -/
theorem C5_noValidation_counterexample :
    mkSolver [1] [] 0 = ⟨[1], [], 0, 1⟩ ∧
    (mkSolver [1] [] 0).n ≠ (mkSolver [1] [] 0).values.length := by
  exact ⟨rfl, by decide⟩

/-- C5 amended: construction never fails and performs no validation at
all — it stores weights, values and capacity unchanged and sets
`n = len(weights)`, even when the two sequences have different lengths;
there is no InvalidInstance condition in the code, and length errors can
surface only later, inside the solvers. -/
theorem C5_construction_total (w v : List Int) (c : Int) :
    (mkSolver w v c).weights = w ∧ (mkSolver w v c).values = v ∧
    (mkSolver w v c).capacity = c ∧ (mkSolver w v c).n = w.length :=
  ⟨rfl, rfl, rfl, rfl⟩

/-- C6: dfs_a (memoized recursion, embedded with its memo threaded as
state and top-level call `dfs(0, capacity)`) computes exactly the spec's
StateSpaceA recurrence `f`: `f(i, c) = 0` when `i >= n` or `c <= 0`, else
`max(f(i+1, c), values[i] + f(i+1, c - weights[i]) when c >= weights[i])`,
with the infeasible take branch excluded; its result is `f(0, capacity)`. -/
theorem C6_dfs_a_meets_spec_recurrence (s : KnapsackSolver) :
    dfs_a s = fSpecA s.weights s.values s.n 0 s.capacity := by
  rw [dfs_a_eq_fA]
  exact fA_eq_fSpecA s.weights s.values s.n 0 s.capacity

/-- C9: in the state-passing view of each method call, the instance a
method leaves behind is exactly the one it received (the Python methods
never assign an attribute of `self`; memo and grid are locals allocated
afresh inside each call), and calling the same method again on that
instance returns the same value. -/
theorem C9_idempotent_no_mutation (s : KnapsackSolver) :
    (dfs_a_call s).2 = s ∧ (dfs_a_call ((dfs_a_call s).2)).1 = (dfs_a_call s).1 ∧
    (dp_a_call s).2 = s ∧ (dp_a_call ((dp_a_call s).2)).1 = (dp_a_call s).1 ∧
    (dfs_b_call s).2 = s ∧ (dfs_b_call ((dfs_b_call s).2)).1 = (dfs_b_call s).1 ∧
    (dp_b_call s).2 = s ∧ (dp_b_call ((dp_b_call s).2)).1 = (dp_b_call s).1 :=
  ⟨rfl, rfl, rfl, rfl, rfl, rfl, rfl, rfl⟩

/-- C10: on an instance with negative capacity and non-negative weights,
the recursive methods return 0 (dfs_a via its `c <= 0` base case, dfs_b
because no take branch is ever feasible), while both iterative methods
fail: with capacity -1 the grid has 0 columns and the final read raises
IndexError; with capacity <= -2 the grid construction itself raises
ValueError (negative dimensions).  The four methods do not behave
identically outside the non-negative-capacity domain. -/
theorem C10_negative_capacity (s : KnapsackSolver) (hcap : s.capacity < 0)
    (hw : ∀ x ∈ s.weights, 0 ≤ x) :
    dfs_a s = 0 ∧ dfs_b s = 0 ∧
    dp_a s = .error (if s.capacity = -1 then .indexError else .negativeDimensions) ∧
    dp_b s = .error (if s.capacity = -1 then .indexError else .negativeDimensions) := by
  refine ⟨?_, ?_, dp_a_err s hcap, dp_b_err s hcap⟩
  · rw [dfs_a_eq_fA, fA_eq]
    rw [if_pos (Or.inr (by omega))]
  · rw [dfs_b_eq_gB]
    exact gBAux_neg s.weights s.values hw s.n s.capacity hcap

/-- C10 witness: the weights-[2] values-[3] capacity-(-1) instance. -/
theorem C10_negative_capacity_witness :
    (mkSolver [2] [3] (-1)).capacity < 0 ∧
    (∀ x ∈ (mkSolver [2] [3] (-1)).weights, 0 ≤ x) ∧
    (dfs_a (mkSolver [2] [3] (-1)) = 0 ∧ dfs_b (mkSolver [2] [3] (-1)) = 0 ∧
      dp_a (mkSolver [2] [3] (-1)) =
        .error (if (mkSolver [2] [3] (-1)).capacity = -1 then .indexError
          else .negativeDimensions) ∧
      dp_b (mkSolver [2] [3] (-1)) =
        .error (if (mkSolver [2] [3] (-1)).capacity = -1 then .indexError
          else .negativeDimensions)) :=
  ⟨by decide, by decide, C10_negative_capacity (mkSolver [2] [3] (-1)) (by decide) (by decide)⟩

/-- C3 counterexample: the claim asserts each method's result equals the
maximum feasible-subset value on every valid instance.  On weights [2, 0],
values [3, 7], capacity 2, the maximum feasible-subset value is 10 (both
items fit: total weight 2), but dfs_a returns 7: after taking the first
item the remaining capacity is 0 and the `c <= 0` base case discards the
weight-0 item.  (The failure is the zero-capacity cutoff, not the
sentinel.) -/
theorem C3_notMaximum_counterexample :
    dfs_a (mkSolver [2, 0] [3, 7] 2) = 7 ∧
    ¬ IsBest (List.zip [2, 0] [3, 7]) 2 (dfs_a (mkSolver [2, 0] [3, 7] 2)) ∧
    IsBest (List.zip [2, 0] [3, 7]) 2 10 := by
  decide

/-- C3 amended: the infeasible take branch (sentinel `-10^9`) never
contributes to any method's result — dfs_a and dfs_b equal the spec's
recurrences with that branch structurally excluded, on every instance and
for values of any magnitude — and on every valid instance whose weights
are all positive, dfs_a and dfs_b return the maximum feasible-subset
value (and agree), while dp_a and dp_b return exactly that value whenever
their machine arithmetic is exact: total value below 2^63 for dp_a's
int64 grid, below 2^53 for dp_b's float64 grid.  With a weight-0 item the
maximum-subset part can fail for dfs_a (see the counterexample), and
beyond the machine ranges dp_a wraps (see the C8 counterexample) and
dp_b rounds. -/
theorem C3_sentinel_safe_and_maximum (w v : List Int) (c : Int) :
    dfs_a (mkSolver w v c) = fSpecA w v w.length 0 c ∧
    dfs_b (mkSolver w v c) = gSpecB w v w.length c ∧
    (v.length = w.length → 0 ≤ c → (∀ x ∈ w, 0 < x) →
      IsBest (w.zip v) c (dfs_a (mkSolver w v c)) ∧
      IsBest (w.zip v) c (dfs_b (mkSolver w v c)) ∧
      dfs_b (mkSolver w v c) = dfs_a (mkSolver w v c) ∧
      ((∀ x ∈ v, 0 ≤ x) → v.sum < 2 ^ 63 →
        dp_a (mkSolver w v c) = .ok (dfs_a (mkSolver w v c))) ∧
      ((∀ x ∈ v, 0 ≤ x) → v.sum < 2 ^ 53 →
        dp_b (mkSolver w v c) = .ok (dfs_b (mkSolver w v c)))) := by
  refine ⟨?_, ?_, ?_⟩
  · rw [dfs_a_eq_fA]
    exact fA_eq_fSpecA w v w.length 0 c
  · rw [dfs_b_eq_gB]
    exact gBAux_eq_gSpecB w v w.length c
  · intro hlen hc hw
    have hw0 : ∀ x ∈ w, 0 ≤ x := fun x hx => le_of_lt (hw x hx)
    have hA : dfs_a (mkSolver w v c) = hAAux w v w.length w.length 0 c := by
      rw [dfs_a_eq_fA]
      show fAAux w v w.length (w.length - 0) 0 c = _
      rw [Nat.sub_zero]
      exact fAAux_eq_hAAux w v w.length (le_refl w.length) hw w.length 0 c
    have hB : dfs_b (mkSolver w v c) = gBAux w v w.length c := dfs_b_eq_gB (mkSolver w v c)
    have hbestA : IsBest (w.zip v) c (hAAux w v w.length w.length 0 c) :=
      hAAux_isBest w v w.length rfl hlen hw0 c hc
    have hbestB : IsBest (w.zip v) c (gBAux w v w.length c) :=
      gBAux_isBest w v w.length rfl hlen hw0 c hc
    refine ⟨?_, ?_, ?_, ?_, ?_⟩
    · rw [hA]; exact hbestA
    · rw [hB]; exact hbestB
    · rw [hA, hB]
      exact isBest_unique (w.zip v) c _ _ hbestB hbestA
    · intro hv hS
      rw [dp_a_ok (mkSolver w v c) hw0 hv (by show w.length ≤ v.length; omega) hS hc, hA]
      rfl
    · intro hv hS
      rw [dp_b_ok (mkSolver w v c) hw0 hv (by show w.length ≤ v.length; omega) hS hc, hB]
      rfl

/-- C3 witness: the all-positive-weights instance weights [2, 3],
values [3, 4], capacity 5 (total value 7, far inside both machine
ranges). -/
theorem C3_sentinel_safe_and_maximum_witness :
    ([3, 4] : List Int).length = ([2, 3] : List Int).length ∧ (0 : Int) ≤ 5 ∧
    (∀ x ∈ ([2, 3] : List Int), 0 < x) ∧
    (IsBest ([2, 3].zip [3, 4]) 5 (dfs_a (mkSolver [2, 3] [3, 4] 5)) ∧
     IsBest ([2, 3].zip [3, 4]) 5 (dfs_b (mkSolver [2, 3] [3, 4] 5)) ∧
     dfs_b (mkSolver [2, 3] [3, 4] 5) = dfs_a (mkSolver [2, 3] [3, 4] 5) ∧
     ((∀ x ∈ ([3, 4] : List Int), 0 ≤ x) → ([3, 4] : List Int).sum < 2 ^ 63 →
       dp_a (mkSolver [2, 3] [3, 4] 5) = .ok (dfs_a (mkSolver [2, 3] [3, 4] 5))) ∧
     ((∀ x ∈ ([3, 4] : List Int), 0 ≤ x) → ([3, 4] : List Int).sum < 2 ^ 53 →
       dp_b (mkSolver [2, 3] [3, 4] 5) = .ok (dfs_b (mkSolver [2, 3] [3, 4] 5)))) :=
  ⟨by decide, by decide, by decide,
    (C3_sentinel_safe_and_maximum [2, 3] [3, 4] 5).2.2 (by decide) (by decide) (by decide)⟩

/-- C4: when dp_a and dp_b return values (so that solve_all reaches its
consistency check), solve_all signals the inconsistency error — carrying
all four method results keyed by method name — exactly when the four
values are not all equal, and otherwise returns the ResultSet mapping
each of the four method names to the common value. -/
theorem C4_solve_all_consistency (s : KnapsackSolver) (b d : Int)
    (hb : dp_a s = .ok b) (hd : dp_b s = .ok d) :
    (solve_all s = .error (.inconsistentResults
        [("DFS_A", dfs_a s), ("DP_A", b), ("DFS_B", dfs_b s), ("DP_B", d)]) ↔
      ¬ (dfs_a s = b ∧ dfs_a s = dfs_b s ∧ dfs_a s = d)) ∧
    ((dfs_a s = b ∧ dfs_a s = dfs_b s ∧ dfs_a s = d) →
      solve_all s = .ok
        [("DFS_A", dfs_a s), ("DP_A", b), ("DFS_B", dfs_b s), ("DP_B", d)]) := by
  simp only [solve_all]
  rw [hb, hd]
  dsimp only
  by_cases heq : dfs_a s = b ∧ dfs_a s = dfs_b s ∧ dfs_a s = d
  · have h1 : [dfs_a s, b, dfs_b s, d].dedup.length = 1 := (dedup4_iff _ _ _ _).mpr heq
    rw [if_neg (fun hne => hne h1)]
    exact ⟨⟨fun hcontra => absurd hcontra (by simp), fun hn => absurd heq hn⟩, fun _ => rfl⟩
  · have h1 : [dfs_a s, b, dfs_b s, d].dedup.length ≠ 1 :=
      fun h => heq ((dedup4_iff _ _ _ _).mp h)
    rw [if_pos h1]
    exact ⟨⟨fun _ => heq, fun _ => rfl⟩, fun hcon => absurd hcon heq⟩

/-- C4 witness: on weights [1], values [2], capacity 3 all four methods
return 2 and solve_all returns the ResultSet. -/
theorem C4_solve_all_consistency_witness :
    dp_a (mkSolver [1] [2] 3) = .ok 2 ∧ dp_b (mkSolver [1] [2] 3) = .ok 2 ∧
    ((solve_all (mkSolver [1] [2] 3) = .error (.inconsistentResults
        [("DFS_A", dfs_a (mkSolver [1] [2] 3)), ("DP_A", 2),
         ("DFS_B", dfs_b (mkSolver [1] [2] 3)), ("DP_B", 2)]) ↔
      ¬ (dfs_a (mkSolver [1] [2] 3) = 2 ∧
         dfs_a (mkSolver [1] [2] 3) = dfs_b (mkSolver [1] [2] 3) ∧
         dfs_a (mkSolver [1] [2] 3) = 2)) ∧
     ((dfs_a (mkSolver [1] [2] 3) = 2 ∧
       dfs_a (mkSolver [1] [2] 3) = dfs_b (mkSolver [1] [2] 3) ∧
       dfs_a (mkSolver [1] [2] 3) = 2) →
      solve_all (mkSolver [1] [2] 3) = .ok
        [("DFS_A", dfs_a (mkSolver [1] [2] 3)), ("DP_A", 2),
         ("DFS_B", dfs_b (mkSolver [1] [2] 3)), ("DP_B", 2)])) :=
  ⟨by decide, by decide,
    C4_solve_all_consistency (mkSolver [1] [2] 3) 2 2 (by decide) (by decide)⟩

/-- C7: on each of the nine test-suite scenarios every one of the four
methods returns the listed expected value (the dp methods as `ok` of it):
([2,3,4,5],[3,4,5,6],8)→10, ([1,2,3],[6,10,12],5)→22, ([5,6,7],[10,20,30],4)→0,
([1,2,3],[4,5,6],0)→0, ([],[],10)→0, ([10,20,30],[60,100,120],50)→220,
([3,4,5],[30,50,60],8)→90, ([2,4,6],[100,1000,10000],6)→10000,
([3,3,3],[5,5,5],6)→10. -/
theorem C7_test_suite_scenarios :
    (dfs_a (mkSolver [2, 3, 4, 5] [3, 4, 5, 6] 8) = 10 ∧
     dp_a (mkSolver [2, 3, 4, 5] [3, 4, 5, 6] 8) = .ok 10 ∧
     dfs_b (mkSolver [2, 3, 4, 5] [3, 4, 5, 6] 8) = 10 ∧
     dp_b (mkSolver [2, 3, 4, 5] [3, 4, 5, 6] 8) = .ok 10) ∧
    (dfs_a (mkSolver [1, 2, 3] [6, 10, 12] 5) = 22 ∧
     dp_a (mkSolver [1, 2, 3] [6, 10, 12] 5) = .ok 22 ∧
     dfs_b (mkSolver [1, 2, 3] [6, 10, 12] 5) = 22 ∧
     dp_b (mkSolver [1, 2, 3] [6, 10, 12] 5) = .ok 22) ∧
    (dfs_a (mkSolver [5, 6, 7] [10, 20, 30] 4) = 0 ∧
     dp_a (mkSolver [5, 6, 7] [10, 20, 30] 4) = .ok 0 ∧
     dfs_b (mkSolver [5, 6, 7] [10, 20, 30] 4) = 0 ∧
     dp_b (mkSolver [5, 6, 7] [10, 20, 30] 4) = .ok 0) ∧
    (dfs_a (mkSolver [1, 2, 3] [4, 5, 6] 0) = 0 ∧
     dp_a (mkSolver [1, 2, 3] [4, 5, 6] 0) = .ok 0 ∧
     dfs_b (mkSolver [1, 2, 3] [4, 5, 6] 0) = 0 ∧
     dp_b (mkSolver [1, 2, 3] [4, 5, 6] 0) = .ok 0) ∧
    (dfs_a (mkSolver [] [] 10) = 0 ∧
     dp_a (mkSolver [] [] 10) = .ok 0 ∧
     dfs_b (mkSolver [] [] 10) = 0 ∧
     dp_b (mkSolver [] [] 10) = .ok 0) ∧
    (dfs_a (mkSolver [10, 20, 30] [60, 100, 120] 50) = 220 ∧
     dp_a (mkSolver [10, 20, 30] [60, 100, 120] 50) = .ok 220 ∧
     dfs_b (mkSolver [10, 20, 30] [60, 100, 120] 50) = 220 ∧
     dp_b (mkSolver [10, 20, 30] [60, 100, 120] 50) = .ok 220) ∧
    (dfs_a (mkSolver [3, 4, 5] [30, 50, 60] 8) = 90 ∧
     dp_a (mkSolver [3, 4, 5] [30, 50, 60] 8) = .ok 90 ∧
     dfs_b (mkSolver [3, 4, 5] [30, 50, 60] 8) = 90 ∧
     dp_b (mkSolver [3, 4, 5] [30, 50, 60] 8) = .ok 90) ∧
    (dfs_a (mkSolver [2, 4, 6] [100, 1000, 10000] 6) = 10000 ∧
     dp_a (mkSolver [2, 4, 6] [100, 1000, 10000] 6) = .ok 10000 ∧
     dfs_b (mkSolver [2, 4, 6] [100, 1000, 10000] 6) = 10000 ∧
     dp_b (mkSolver [2, 4, 6] [100, 1000, 10000] 6) = .ok 10000) ∧
    (dfs_a (mkSolver [3, 3, 3] [5, 5, 5] 6) = 10 ∧
     dp_a (mkSolver [3, 3, 3] [5, 5, 5] 6) = .ok 10 ∧
     dfs_b (mkSolver [3, 3, 3] [5, 5, 5] 6) = 10 ∧
     dp_b (mkSolver [3, 3, 3] [5, 5, 5] 6) = .ok 10) := by
  decide

/-- C8 counterexample: capacity-monotonicity fails for dp_a on a valid
instance once the int64 grid wraps.  On weights [1, 1],
values [2^62 + 5, 2^62]: at capacity 1 only one item fits, and dp_a
returns 2^62 + 5; at capacity 2 the take branch for item 0 computes
(2^62 + 5) + 2^62 = 2^63 + 5, which wraps to the negative 5 - 2^63 in
int64 and loses the max, so dp_a returns only 2^62 — strictly less than
at the smaller capacity (dfs_a, with Python's arbitrary-precision ints,
returns the true optimum 2^63 + 5). -/
theorem C8_int64_wrap_counterexample :
    dp_a (mkSolver [1, 1] [2 ^ 62 + 5, 2 ^ 62] 1) = .ok (2 ^ 62 + 5) ∧
    dp_a (mkSolver [1, 1] [2 ^ 62 + 5, 2 ^ 62] 2) = .ok (2 ^ 62) ∧
    dfs_a (mkSolver [1, 1] [2 ^ 62 + 5, 2 ^ 62] 2) = 2 ^ 63 + 5 ∧
    ¬ ((2 ^ 62 + 5 : Int) ≤ 2 ^ 62) := by
  decide

/-- C8 amended: with fixed weights and values and capacities `c1 <= c2`,
dfs_a's and dfs_b's results at `c1` are at most their results at `c2` on
every valid instance; the `ok` results of dp_a and dp_b are monotone as
well provided the grid arithmetic is exact — total value below 2^63 for
dp_a's int64 grid, below 2^53 for dp_b's float64 grid.  Beyond those
ranges dp_a's result can decrease as the capacity grows (int64
wraparound; see the counterexample). -/
theorem C8_monotone_in_capacity (w v : List Int) (c1 c2 : Int)
    (hw : ∀ x ∈ w, 0 ≤ x) (hv : ∀ x ∈ v, 0 ≤ x) (hlen : v.length = w.length)
    (hc : c1 ≤ c2) :
    dfs_a (mkSolver w v c1) ≤ dfs_a (mkSolver w v c2) ∧
    dfs_b (mkSolver w v c1) ≤ dfs_b (mkSolver w v c2) ∧
    (v.sum < 2 ^ 63 → ∀ a1 a2 : Int, dp_a (mkSolver w v c1) = .ok a1 →
      dp_a (mkSolver w v c2) = .ok a2 → a1 ≤ a2) ∧
    (v.sum < 2 ^ 53 → ∀ b1 b2 : Int, dp_b (mkSolver w v c1) = .ok b1 →
      dp_b (mkSolver w v c2) = .ok b2 → b1 ≤ b2) := by
  have hnv1 : (mkSolver w v c1).n ≤ (mkSolver w v c1).values.length := by
    show w.length ≤ v.length
    omega
  have hnv2 : (mkSolver w v c2).n ≤ (mkSolver w v c2).values.length := by
    show w.length ≤ v.length
    omega
  refine ⟨?_, ?_, ?_, ?_⟩
  · rw [dfs_a_eq_fA, dfs_a_eq_fA]
    exact fAAux_mono w v w.length (w.length - 0) 0 c1 c2 hc
  · rw [dfs_b_eq_gB, dfs_b_eq_gB]
    exact gBAux_mono w v w.length c1 c2 hc
  · intro hS a1 a2 h1 h2
    have hc1 : 0 ≤ c1 := by
      by_contra hneg
      rw [dp_a_err (mkSolver w v c1) (show c1 < 0 by omega)] at h1
      exact absurd h1 (by simp)
    have hc2' : 0 ≤ c2 := le_trans hc1 hc
    rw [dp_a_ok (mkSolver w v c1) hw hv hnv1 hS hc1] at h1
    rw [dp_a_ok (mkSolver w v c2) hw hv hnv2 hS hc2'] at h2
    injection h1 with h1'
    injection h2 with h2'
    rw [← h1', ← h2']
    exact hAAux_mono w v w.length w.length 0 c1 c2 hc
  · intro hS b1 b2 h1 h2
    have hc1 : 0 ≤ c1 := by
      by_contra hneg
      rw [dp_b_err (mkSolver w v c1) (show c1 < 0 by omega)] at h1
      exact absurd h1 (by simp)
    have hc2' : 0 ≤ c2 := le_trans hc1 hc
    rw [dp_b_ok (mkSolver w v c1) hw hv hnv1 hS hc1] at h1
    rw [dp_b_ok (mkSolver w v c2) hw hv hnv2 hS hc2'] at h2
    injection h1 with h1'
    injection h2 with h2'
    rw [← h1', ← h2']
    exact gBAux_mono w v w.length c1 c2 hc

/-- C8 witness: weights [2], values [3], capacities 1 and 2. -/
theorem C8_monotone_in_capacity_witness :
    (∀ x ∈ ([2] : List Int), 0 ≤ x) ∧ (∀ x ∈ ([3] : List Int), 0 ≤ x) ∧
    ([3] : List Int).length = ([2] : List Int).length ∧ (1 : Int) ≤ 2 ∧
    (dfs_a (mkSolver [2] [3] 1) ≤ dfs_a (mkSolver [2] [3] 2) ∧
     dfs_b (mkSolver [2] [3] 1) ≤ dfs_b (mkSolver [2] [3] 2) ∧
     (([3] : List Int).sum < 2 ^ 63 → ∀ a1 a2 : Int,
       dp_a (mkSolver [2] [3] 1) = .ok a1 →
       dp_a (mkSolver [2] [3] 2) = .ok a2 → a1 ≤ a2) ∧
     (([3] : List Int).sum < 2 ^ 53 → ∀ b1 b2 : Int,
       dp_b (mkSolver [2] [3] 1) = .ok b1 →
       dp_b (mkSolver [2] [3] 2) = .ok b2 → b1 ≤ b2)) :=
  ⟨by decide, by decide, by decide, by decide,
    C8_monotone_in_capacity [2] [3] 1 2 (by decide) (by decide) (by decide) (by decide)⟩
